import Mathlib

/-!
# Verification of bookcoder (src/bookcoder.c)

A shallow embedding of the book-cipher encoder (`mapOffsets`, lines 205-338)
and decoder (`extractBytes`, lines 340-401), together with the corpus-size
truncation done by `main` (line 860: `bkFilSize -= bkFilSize % bkFilBufSize`).

Modelling conventions:
* Bytes and offsets are `Nat`.  The C types `byte_t = uint8_t` and
  `uoffset_t = uint32_t` wrap at 2^8 / 2^32; the program's own header comment
  and the spec's non-goals restrict corpora to offsets representable in 32
  bits, so positions are modelled on `Nat` and the serialisation theorems
  carry an explicit `truncBkFilSize ≤ 2 ^ 32` hypothesis.
* The book file is a `List Nat` (`bkFil`).  The encoder's window buffer of
  size `W = bkFilBufSize` always holds `bkFil[bkFilPos .. bkFilPos + W)`
  (the priming `fread`, each refill `fread`, and the wrap `fseek` keep the
  OS file cursor equal to `bkFilPos + W`), so buffer reads are modelled as
  `bkFil.getD (bkFilPos + bkFilBufPos) 0`.
* The input-chunk loop of `mapOffsets` (lines 225-245) only partitions the
  original file into `orgFilBufSize` pieces; no encoder state is touched at
  a chunk boundary, so the input is modelled as one `List Nat`.
* The C matching loop can fail to terminate (see the counterexamples below),
  so the per-byte scan takes explicit fuel; exhausting the fuel models
  divergence (`MapErr.outOfFuel`).  `MapErr.insufficientEntropy` models the
  `exit(EXIT_FAILURE)` at line 318.
* The digest `offset_t offsetDigest[256]`, initialised to `-1` (line 781),
  is modelled as `Nat → Option Nat` with `none` for the `-1` sentinel.
* `fwrite(&byteOffset, 1, 4, ...)` (line 291) and the decoder's
  `uoffset_t` buffer use the machine byte order; the spec (§6) fixes
  little-endian for a portable reading, which `offsetToBytes` /
  `bytesToOffsets` implement.  Both sides use the same order, as required.
* The decoder's `fseek` + `fgetc` pair (lines 374-379) is unchecked: seeking
  at or past end of file makes `fgetc` return `EOF` (-1), which the store
  into `byte_t extrFilBuffer[...]` truncates to `0xFF`.  `readBkFilByte`
  models exactly that.
-/

namespace Bookcoder

/-- Usable corpus length after `main`'s truncation at line 860:
`bkFilSize -= bkFilSize % bkFilBufSize`. -/
def truncBkFilSize (bkFil : List Nat) (W : Nat) : Nat :=
  bkFil.length - bkFil.length % W

/-- Encoder state threaded through `mapOffsets`: the window start
`bkFilPos`, the cursor in the window `bkFilBufPos`, the duplicate digest
`offsetDigest` (C: `offset_t offsetDigest[256]`, `-1` = `none`), and the
function-local `repeatsFound` counter. -/
structure EncState where
  bkFilPos : Nat
  bkFilBufPos : Nat
  offsetDigest : Nat → Option Nat
  repeatsFound : Nat

/-- State at the start of an encoding session (`main`, lines 769-781). -/
def initState : EncState :=
  { bkFilPos := 0
    bkFilBufPos := 0
    offsetDigest := fun _ => none
    repeatsFound := 0 }

/-- Session outcome of the matching scan.  `insufficientEntropy` is the
fatal error at lines 316-319; `outOfFuel` models a scan that never
returns (the C code loops forever). -/
inductive MapErr where
  | insufficientEntropy
  | outOfFuel
deriving DecidableEq

/-- The `refillBuffer` block of `mapOffsets` (lines 305-330): advance the
window, run the end-of-corpus / reset-at-buffer check with the
insufficient-entropy test, and reload.  The returned `bkFilBufPos` is `1`,
not `0`: the C code sets `bkFilBufPos = 0` inside the `for` body, and the
loop's `bkFilBufPos++` increment runs before the next byte of the new
window is examined, so index 0 of every reloaded window is skipped. -/
def refillBuffer (bkFil : List Nat) (W : Nat) (resetAtEndOfBuf : Bool)
    (b : Nat) (s : EncState) : Except MapErr EncState :=
  let bkFilPos2 := s.bkFilPos + W
  if truncBkFilSize bkFil W - 1 ≤ bkFilPos2 ∨ resetAtEndOfBuf = true then
    if s.offsetDigest b = none then
      .error .insufficientEntropy
    else
      .ok { s with bkFilPos := 0, bkFilBufPos := 1 }
  else
    .ok { s with bkFilPos := bkFilPos2, bkFilBufPos := 1 }

/-- One input byte's matching scan (the `while`/`for` nest of `mapOffsets`,
lines 249-333), with fuel for the loops.  Returns the accepted
`byteOffset` and the state after acceptance (the cursor stays on the
accepted position: the `goto getNextOriginalFileByte` at line 302 skips
the `for` increment). -/
def findOffset (bkFil : List Nat) (W : Nat)
    (allowDuplicates resetAtEndOfBuf : Bool) (b : Nat) :
    Nat → EncState → Except MapErr (Nat × EncState)
  | 0, _ => .error .outOfFuel
  | fuel + 1, s =>
    if s.bkFilPos < truncBkFilSize bkFil W then
      if s.bkFilBufPos < W then
        let c := bkFil.getD (s.bkFilPos + s.bkFilBufPos) 0
        if b = c then
          let byteOffset := s.bkFilBufPos + s.bkFilPos
          if allowDuplicates = false ∧ s.offsetDigest c = some byteOffset then
            if 2 ≤ s.repeatsFound then
              match refillBuffer bkFil W resetAtEndOfBuf b s with
              | .error e => .error e
              | .ok s2 => findOffset bkFil W allowDuplicates resetAtEndOfBuf b fuel s2
            else
              findOffset bkFil W allowDuplicates resetAtEndOfBuf b fuel
                { s with
                    bkFilBufPos := (if s.bkFilBufPos = W - 1 then 0 else s.bkFilBufPos) + 1,
                    repeatsFound := s.repeatsFound + 1 }
          else
            .ok (byteOffset,
              { s with
                  repeatsFound := 0,
                  offsetDigest := fun k => if k = c then some byteOffset else s.offsetDigest k })
        else
          if s.bkFilBufPos = W - 1 then
            match refillBuffer bkFil W resetAtEndOfBuf b s with
            | .error e => .error e
            | .ok s2 => findOffset bkFil W allowDuplicates resetAtEndOfBuf b fuel s2
          else
            findOffset bkFil W allowDuplicates resetAtEndOfBuf b fuel
              { s with bkFilBufPos := s.bkFilBufPos + 1 }
      else
        findOffset bkFil W allowDuplicates resetAtEndOfBuf b fuel s
    else
      findOffset bkFil W allowDuplicates resetAtEndOfBuf b fuel s

/-- The whole encoding session (`mapOffsets`): map each input byte in order,
writing its offset code before moving on, and stop at the first failure.
Returns the offsets written so far, the final encoder state, and `none` on
success / `some e` on abort.  Each byte's scan gets `fuel` steps. -/
def mapOffsets (bkFil : List Nat) (W : Nat)
    (allowDuplicates resetAtEndOfBuf : Bool) (fuel : Nat) :
    List Nat → EncState → List Nat × EncState × Option MapErr
  | [], s => ([], s, none)
  | b :: rest, s =>
    match findOffset bkFil W allowDuplicates resetAtEndOfBuf b fuel s with
    | .error e => ([], s, some e)
    | .ok (off, s2) =>
      let r := mapOffsets bkFil W allowDuplicates resetAtEndOfBuf fuel rest s2
      (off :: r.1, r.2)

/-- Little-endian 4-byte serialisation of one `uoffset_t` offset code
(the `fwrite(&oSetSt->byteOffset, 1, sizeof(oSetSt->byteOffset), ...)`
at line 291). -/
def offsetToBytes (o : Nat) : List Nat :=
  [o % 256, o / 256 % 256, o / 65536 % 256, o / 16777216 % 256]

/-- The encoded stream as written to the book-code file: one fixed-width
4-byte code per accepted input byte, in input order. -/
def bkCdBytes (codes : List Nat) : List Nat :=
  codes.flatMap offsetToBytes

/-- Reassemble whole 4-byte offset codes from a byte stream, dropping a
trailing partial unit — the decoder's `currentChunk / sizeof(byteOffset)`
division at line 369. -/
def bytesToOffsets : List Nat → List Nat
  | b0 :: b1 :: b2 :: b3 :: rest =>
    (b0 + 256 * b1 + 65536 * b2 + 16777216 * b3) :: bytesToOffsets rest
  | _ => []

/-- The decoder's unchecked `fseek` + `fgetc` (lines 374-379): a byte of the
book file for an in-range offset, and `0xFF` otherwise (`fgetc` past end of
file returns `EOF = -1`, truncated by the `byte_t` store). -/
def readBkFilByte (bkFil : List Nat) (o : Nat) : Nat :=
  if o < bkFil.length then bkFil.getD o 0 else 255

/-- The decoding session (`extractBytes`): read the book code in chunks of
`R` bytes, turn each chunk's whole 4-byte units into offsets, look each
offset up in the book file, and append the bytes.  The final short chunk is
processed the same way and ends the loop (lines 352-398).  `R = 0` is
excluded by the callers (in C it would loop forever reading 0 bytes). -/
def extractBytes (bkFil : List Nat) (R : Nat) (bs : List Nat) : List Nat :=
  if hR : 0 < R then
    if hlen : R ≤ bs.length then
      (bytesToOffsets (bs.take R)).map (readBkFilByte bkFil)
        ++ extractBytes bkFil R (bs.drop R)
    else
      (bytesToOffsets bs).map (readBkFilByte bkFil)
  else
    []
termination_by bs.length
decreasing_by
  simp only [List.length_drop]
  omega

/-! ## Arithmetic of the truncated corpus size -/

lemma truncBkFilSize_le (bkFil : List Nat) (W : Nat) :
    truncBkFilSize bkFil W ≤ bkFil.length :=
  Nat.sub_le _ _

lemma truncBkFilSize_eq (bkFil : List Nat) (W : Nat) :
    truncBkFilSize bkFil W = W * (bkFil.length / W) := by
  unfold truncBkFilSize
  exact (Nat.sub_eq_iff_eq_add (Nat.mod_le _ _)).2 (Nat.div_add_mod _ _).symm

lemma dvd_truncBkFilSize (bkFil : List Nat) (W : Nat) :
    W ∣ truncBkFilSize bkFil W :=
  (truncBkFilSize_eq bkFil W) ▸ Dvd.intro _ rfl

lemma le_truncBkFilSize (bkFil : List Nat) (W : Nat) (hW : 0 < W)
    (h : W ≤ bkFil.length) : W ≤ truncBkFilSize bkFil W := by
  rw [truncBkFilSize_eq]
  have h1 : 1 ≤ bkFil.length / W := (Nat.one_le_div_iff hW).2 h
  calc W = W * 1 := (Nat.mul_one W).symm
    _ ≤ W * (bkFil.length / W) := Nat.mul_le_mul_left W h1

lemma pos_add_W_le {W p S : Nat} (hW : 0 < W) (hdvd : W ∣ p) (hS : W ∣ S)
    (hp : p < S) : p + W ≤ S := by
  obtain ⟨a, rfl⟩ := hdvd
  obtain ⟨c, rfl⟩ := hS
  have hac : a < c := Nat.lt_of_mul_lt_mul_left hp
  calc W * a + W = W * (a + 1) := by ring
    _ ≤ W * c := Nat.mul_le_mul_left W hac

/-! ## The encoder invariant

`DigestSound` is the meaning of the duplicate digest: every recorded offset
points at a matching byte inside the usable (truncated) corpus region.
`EncInv` additionally records that the window start is a whole multiple of
the window size, which is what `mapOffsets` maintains by always advancing
`bkFilPos` by `bkFilBufSize` (line 307) or resetting it to 0 (line 322). -/

def DigestSound (bkFil : List Nat) (S : Nat) (d : Nat → Option Nat) : Prop :=
  ∀ k o, d k = some o → o < S ∧ bkFil.getD o 0 = k

def EncInv (bkFil : List Nat) (W : Nat) (s : EncState) : Prop :=
  W ∣ s.bkFilPos ∧ DigestSound bkFil (truncBkFilSize bkFil W) s.offsetDigest

lemma digestSound_init (bkFil : List Nat) (S : Nat) :
    DigestSound bkFil S initState.offsetDigest := by
  intro k o h
  simp [initState] at h

lemma encInv_init (bkFil : List Nat) (W : Nat) : EncInv bkFil W initState :=
  ⟨Dvd.intro 0 rfl, digestSound_init bkFil _⟩

/-- Case analysis of a successful buffer refill: either the end-of-corpus /
reset check fired (with a non-sentinel digest entry for `b`) and the window
wrapped to 0, or the window advanced by `W` strictly inside the corpus.
Either way the scan resumes at buffer index 1. -/
lemma refillBuffer_ok_cases {bkFil : List Nat} {W : Nat} {rB : Bool}
    {b : Nat} {s s2 : EncState}
    (h : refillBuffer bkFil W rB b s = .ok s2) :
    (s2 = { s with bkFilPos := 0, bkFilBufPos := 1 } ∧ s.offsetDigest b ≠ none)
    ∨ (s2 = { s with bkFilPos := s.bkFilPos + W, bkFilBufPos := 1 } ∧
        s.bkFilPos + W < truncBkFilSize bkFil W - 1 ∧ rB = false) := by
  unfold refillBuffer at h
  by_cases hc : truncBkFilSize bkFil W - 1 ≤ s.bkFilPos + W ∨ rB = true
  · rw [if_pos hc] at h
    by_cases hd : s.offsetDigest b = none
    · rw [if_pos hd] at h
      exact absurd h (by simp)
    · rw [if_neg hd] at h
      exact Or.inl ⟨by injection h with h2; exact h2.symm, hd⟩
  · rw [if_neg hc] at h
    push_neg at hc
    refine Or.inr ⟨by injection h with h2; exact h2.symm, hc.1, ?_⟩
    cases rB
    · rfl
    · exact absurd rfl hc.2

lemma refillBuffer_ok_inv {bkFil : List Nat} {W : Nat} {rB : Bool}
    {b : Nat} {s s2 : EncState} (hinv : EncInv bkFil W s)
    (h : refillBuffer bkFil W rB b s = .ok s2) : EncInv bkFil W s2 := by
  rcases refillBuffer_ok_cases h with ⟨rfl, -⟩ | ⟨rfl, -, -⟩
  · exact ⟨Dvd.intro 0 rfl, hinv.2⟩
  · exact ⟨Nat.dvd_add hinv.1 dvd_rfl, hinv.2⟩

lemma refillBuffer_ok_digest {bkFil : List Nat} {W : Nat} {rB : Bool}
    {b : Nat} {s s2 : EncState}
    (h : refillBuffer bkFil W rB b s = .ok s2) :
    s2.offsetDigest = s.offsetDigest := by
  rcases refillBuffer_ok_cases h with ⟨rfl, -⟩ | ⟨rfl, -, -⟩ <;> rfl

/-- Soundness of one byte's matching scan.  If the scan accepts offset
`off` for input byte `b`, then `off` lies inside the usable corpus region,
the corpus byte there is exactly `b`, the invariant is preserved, the
cursor is left on a valid window position, the digest records `off` for
`b` (and nothing else changed), the repeat counter resets, and — with
duplicates disallowed — the accepted offset differs from the digest's
previous entry for `b`. -/
lemma findOffset_ok {bkFil : List Nat} {W : Nat} {aD rB : Bool} {b : Nat}
    (hW : 0 < W) :
    ∀ (fuel : Nat) (s : EncState) (off : Nat) (s2 : EncState),
      EncInv bkFil W s →
      findOffset bkFil W aD rB b fuel s = .ok (off, s2) →
      off < truncBkFilSize bkFil W ∧
      bkFil.getD off 0 = b ∧
      EncInv bkFil W s2 ∧
      s2.bkFilPos < truncBkFilSize bkFil W ∧
      s2.bkFilBufPos < W ∧
      s2.offsetDigest = (fun k => if k = b then some off else s.offsetDigest k) ∧
      s2.repeatsFound = 0 ∧
      (aD = false → s.offsetDigest b ≠ some off) := by
  intro fuel
  induction fuel with
  | zero =>
    intro s off s2 _ h
    simp [findOffset] at h
  | succ fuel ih =>
    intro s off s2 hinv h
    rw [findOffset] at h
    by_cases hpos : s.bkFilPos < truncBkFilSize bkFil W
    swap
    · rw [if_neg hpos] at h
      exact ih s off s2 hinv h
    rw [if_pos hpos] at h
    by_cases hbuf : s.bkFilBufPos < W
    swap
    · rw [if_neg hbuf] at h
      exact ih s off s2 hinv h
    rw [if_pos hbuf] at h
    simp only at h
    by_cases hb : b = bkFil.getD (s.bkFilPos + s.bkFilBufPos) 0
    · rw [if_pos hb] at h
      by_cases hdup : aD = false ∧
          s.offsetDigest (bkFil.getD (s.bkFilPos + s.bkFilBufPos) 0)
            = some (s.bkFilBufPos + s.bkFilPos)
      · rw [if_pos hdup] at h
        by_cases hrf : 2 ≤ s.repeatsFound
        · rw [if_pos hrf] at h
          cases hre : refillBuffer bkFil W rB b s with
          | error e => rw [hre] at h; exact absurd h (by simp)
          | ok s3 =>
            rw [hre] at h
            have hinv3 := refillBuffer_ok_inv hinv hre
            have hdig3 := refillBuffer_ok_digest hre
            obtain ⟨c1, c2, c3, c4, c5, c6, c7, c8⟩ := ih s3 off s2 hinv3 h
            exact ⟨c1, c2, c3, c4, c5, by rw [c6, hdig3], c7,
              fun haD => hdig3 ▸ c8 haD⟩
        · rw [if_neg hrf] at h
          have hinv' : EncInv bkFil W
              { s with
                  bkFilBufPos := (if s.bkFilBufPos = W - 1 then 0 else s.bkFilBufPos) + 1,
                  repeatsFound := s.repeatsFound + 1 } := ⟨hinv.1, hinv.2⟩
          obtain ⟨c1, c2, c3, c4, c5, c6, c7, c8⟩ := ih _ off s2 hinv' h
          exact ⟨c1, c2, c3, c4, c5, c6, c7, c8⟩
      · rw [if_neg hdup] at h
        injection h with h2
        injection h2 with hoff hs2
        subst hoff hs2
        have hoffS : s.bkFilBufPos + s.bkFilPos < truncBkFilSize bkFil W := by
          have := pos_add_W_le hW hinv.1 (dvd_truncBkFilSize bkFil W) hpos
          omega
        refine ⟨hoffS, ?_, ⟨hinv.1, ?_⟩, hpos, hbuf, ?_, rfl, ?_⟩
        · rw [Nat.add_comm s.bkFilBufPos s.bkFilPos]
          exact hb.symm
        · intro k o hko
          simp only at hko
          by_cases hk : k = bkFil.getD (s.bkFilPos + s.bkFilBufPos) 0
          · rw [if_pos hk] at hko
            injection hko with ho
            subst ho
            exact ⟨hoffS, by rw [Nat.add_comm s.bkFilBufPos s.bkFilPos, ← hb, hk, hb]⟩
          · rw [if_neg hk] at hko
            exact hinv.2 k o hko
        · simp only
          rw [← hb]
        · intro haD heq
          exact hdup ⟨haD, by rw [← hb]; exact heq⟩
    · rw [if_neg hb] at h
      by_cases hlast : s.bkFilBufPos = W - 1
      · rw [if_pos hlast] at h
        cases hre : refillBuffer bkFil W rB b s with
        | error e => rw [hre] at h; exact absurd h (by simp)
        | ok s3 =>
          rw [hre] at h
          have hinv3 := refillBuffer_ok_inv hinv hre
          have hdig3 := refillBuffer_ok_digest hre
          obtain ⟨c1, c2, c3, c4, c5, c6, c7, c8⟩ := ih s3 off s2 hinv3 h
          exact ⟨c1, c2, c3, c4, c5, by rw [c6, hdig3], c7,
            fun haD => hdig3 ▸ c8 haD⟩
      · rw [if_neg hlast] at h
        have hinv' : EncInv bkFil W { s with bkFilBufPos := s.bkFilBufPos + 1 } :=
          ⟨hinv.1, hinv.2⟩
        exact ih { s with bkFilBufPos := s.bkFilBufPos + 1 } off s2 hinv' h

lemma mapOffsets_nil {bkFil : List Nat} {W : Nat} {aD rB : Bool} {F : Nat}
    {s : EncState} : mapOffsets bkFil W aD rB F [] s = ([], s, none) :=
  rfl

lemma mapOffsets_cons_err {bkFil : List Nat} {W : Nat} {aD rB : Bool} {F : Nat}
    {b : Nat} {rest : List Nat} {s : EncState} {e : MapErr}
    (h : findOffset bkFil W aD rB b F s = .error e) :
    mapOffsets bkFil W aD rB F (b :: rest) s = ([], s, some e) := by
  rw [mapOffsets, h]

lemma mapOffsets_cons_ok {bkFil : List Nat} {W : Nat} {aD rB : Bool} {F : Nat}
    {b : Nat} {rest : List Nat} {s : EncState} {off : Nat} {s3 : EncState}
    (h : findOffset bkFil W aD rB b F s = .ok (off, s3)) :
    mapOffsets bkFil W aD rB F (b :: rest) s =
      (off :: (mapOffsets bkFil W aD rB F rest s3).1,
        (mapOffsets bkFil W aD rB F rest s3).2) := by
  rw [mapOffsets, h]

/-- Session soundness.  Whatever the outcome, the offsets already written
correspond one-to-one, in order, to the prefix of the input processed so
far, each offset landing on a matching byte in the usable corpus region;
the invariant is preserved; on success one offset was written per input
byte; and a valid cursor position is preserved. -/
lemma mapOffsets_sound (bkFil : List Nat) (W : Nat) (aD rB : Bool) (F : Nat)
    (hW : 0 < W) :
    ∀ (bs : List Nat) (s : EncState), EncInv bkFil W s →
      EncInv bkFil W (mapOffsets bkFil W aD rB F bs s).2.1 ∧
      List.Forall₂
        (fun x o => o < truncBkFilSize bkFil W ∧ bkFil.getD o 0 = x)
        (bs.take (mapOffsets bkFil W aD rB F bs s).1.length)
        (mapOffsets bkFil W aD rB F bs s).1 ∧
      ((mapOffsets bkFil W aD rB F bs s).2.2 = none →
        (mapOffsets bkFil W aD rB F bs s).1.length = bs.length) ∧
      (s.bkFilPos < truncBkFilSize bkFil W ∧ s.bkFilBufPos < W →
        (mapOffsets bkFil W aD rB F bs s).2.1.bkFilPos < truncBkFilSize bkFil W ∧
          (mapOffsets bkFil W aD rB F bs s).2.1.bkFilBufPos < W) := by
  intro bs
  induction bs with
  | nil =>
    intro s hinv
    exact ⟨hinv, by simp [mapOffsets_nil], by simp [mapOffsets_nil],
      fun h => by simpa [mapOffsets_nil] using h⟩
  | cons x rest ih =>
    intro s hinv
    cases hf : findOffset bkFil W aD rB x F s with
    | error e =>
      rw [mapOffsets_cons_err hf]
      exact ⟨hinv, by simp, by simp, fun h => h⟩
    | ok p =>
      obtain ⟨off, s3⟩ := p
      rw [mapOffsets_cons_ok hf]
      obtain ⟨c1, c2, c3, c4, c5, -, -, -⟩ := findOffset_ok hW F s off s3 hinv hf
      obtain ⟨i1, i2, i3, i4⟩ := ih s3 c3
      refine ⟨i1, ?_, ?_, fun _ => i4 ⟨c4, c5⟩⟩
      · simpa using List.Forall₂.cons ⟨c1, c2⟩ i2
      · intro h
        simp only [List.length_cons]
        rw [i3 (by simpa using h)]

/-- Decomposing a session over an input split: if the first part succeeds,
the session continues from its final state. -/
lemma mapOffsets_append_ok {bkFil : List Nat} {W : Nat} {aD rB : Bool} {F : Nat} :
    ∀ (xs ys : List Nat) (s : EncState) (cs : List Nat) (s1 : EncState),
      mapOffsets bkFil W aD rB F xs s = (cs, s1, none) →
      mapOffsets bkFil W aD rB F (xs ++ ys) s =
        (cs ++ (mapOffsets bkFil W aD rB F ys s1).1,
          (mapOffsets bkFil W aD rB F ys s1).2) := by
  intro xs
  induction xs with
  | nil =>
    intro ys s cs s1 h
    rw [mapOffsets_nil] at h
    simp only [Prod.mk.injEq] at h
    obtain ⟨h1, h2, -⟩ := h
    subst h1 h2
    simp
  | cons x xs ih =>
    intro ys s cs s1 h
    cases hf : findOffset bkFil W aD rB x F s with
    | error e =>
      rw [mapOffsets_cons_err hf] at h
      simp only [Prod.mk.injEq] at h
      exact absurd h.2.2 (by simp)
    | ok p =>
      obtain ⟨off, s3⟩ := p
      rw [mapOffsets_cons_ok hf] at h
      simp only [Prod.mk.injEq] at h
      obtain ⟨h1, h2⟩ := h
      have hxs : mapOffsets bkFil W aD rB F xs s3 =
          ((mapOffsets bkFil W aD rB F xs s3).1, s1, none) := by
        rw [← h2]
      show mapOffsets bkFil W aD rB F (x :: (xs ++ ys)) s = _
      rw [mapOffsets_cons_ok hf, ih ys s3 _ s1 hxs, ← h1]
      simp

/-- A session that never processed byte value `b` leaves the digest entry
for `b` untouched. -/
lemma mapOffsets_digest_not_mem {bkFil : List Nat} {W : Nat} {aD rB : Bool}
    {F : Nat} {b : Nat} (hW : 0 < W) :
    ∀ (bs : List Nat) (s : EncState), EncInv bkFil W s → b ∉ bs →
      (mapOffsets bkFil W aD rB F bs s).2.2 = none →
      (mapOffsets bkFil W aD rB F bs s).2.1.offsetDigest b = s.offsetDigest b := by
  intro bs
  induction bs with
  | nil => intro s _ _ _; rw [mapOffsets_nil]
  | cons x rest ih =>
    intro s hinv hmem hok
    cases hf : findOffset bkFil W aD rB x F s with
    | error e => rw [mapOffsets_cons_err hf] at hok; simp at hok
    | ok p =>
      obtain ⟨off, s3⟩ := p
      rw [mapOffsets_cons_ok hf] at hok ⊢
      obtain ⟨-, -, c3, -, -, c6, -, -⟩ := findOffset_ok hW F s off s3 hinv hf
      have hbx : b ≠ x := fun hbx => hmem (hbx ▸ List.mem_cons_self x rest)
      have hb3 : s3.offsetDigest b = s.offsetDigest b := by
        rw [c6]
        simp [hbx]
      rw [← hb3]
      exact ih s3 c3 (fun hm => hmem (List.mem_cons_of_mem x hm)) hok

/-- Scanning for a byte value with no occurrence in the usable corpus
region terminates with the insufficient-entropy error: the scan walks the
remaining windows without ever matching, and the first wrap check (lines
311-319) finds the digest entry still at its `-1` sentinel.  The fuel bound
`S + W` steps (one per examined buffer cell plus one per refill) makes the
termination effective.  A window of at least 2 bytes is required: with
`W = 1` the buffer index 1 set by every refill already equals the window
size and the C loops spin forever without examining anything. -/
lemma findOffset_absent {bkFil : List Nat} {W : Nat} {aD rB : Bool} {b : Nat}
    (hW2 : 2 ≤ W)
    (habs : ∀ i, i < truncBkFilSize bkFil W → bkFil.getD i 0 ≠ b) :
    ∀ (fuel : Nat) (s : EncState),
      DigestSound bkFil (truncBkFilSize bkFil W) s.offsetDigest →
      W ∣ s.bkFilPos →
      s.bkFilPos < truncBkFilSize bkFil W →
      s.bkFilBufPos < W →
      truncBkFilSize bkFil W + W - s.bkFilPos - s.bkFilBufPos ≤ fuel →
      findOffset bkFil W aD rB b fuel s = .error .insufficientEntropy := by
  intro fuel
  induction fuel with
  | zero =>
    intro s _ _ hpos hbuf hfuel
    omega
  | succ fuel ih =>
    intro s hsound hdvd hpos hbuf hfuel
    rw [findOffset, if_pos hpos, if_pos hbuf]
    simp only
    have hcb : ¬ (b = bkFil.getD (s.bkFilPos + s.bkFilBufPos) 0) := by
      intro hbz
      have hlt : s.bkFilPos + s.bkFilBufPos < truncBkFilSize bkFil W := by
        have := pos_add_W_le (by omega) hdvd (dvd_truncBkFilSize bkFil W) hpos
        omega
      exact habs _ hlt hbz.symm
    rw [if_neg hcb]
    have hdigb : s.offsetDigest b = none := by
      cases hd : s.offsetDigest b with
      | none => rfl
      | some o =>
        obtain ⟨ho1, ho2⟩ := hsound b o hd
        exact absurd ho2 (habs o ho1)
    by_cases hlast : s.bkFilBufPos = W - 1
    · rw [if_pos hlast]
      unfold refillBuffer
      by_cases hc : truncBkFilSize bkFil W - 1 ≤ s.bkFilPos + W ∨ rB = true
      · rw [if_pos hc, if_pos hdigb]
      · rw [if_neg hc]
        push_neg at hc
        obtain ⟨hc1, -⟩ := hc
        show findOffset bkFil W aD rB b fuel _ = _
        apply ih
        · exact hsound
        · exact Nat.dvd_add hdvd dvd_rfl
        · show s.bkFilPos + W < truncBkFilSize bkFil W
          omega
        · show 1 < W
          omega
        · show truncBkFilSize bkFil W + W - (s.bkFilPos + W) - 1 ≤ fuel
          omega
    · rw [if_neg hlast]
      apply ih
      · exact hsound
      · exact hdvd
      · exact hpos
      · show s.bkFilBufPos + 1 < W
        omega
      · show truncBkFilSize bkFil W + W - s.bkFilPos - (s.bkFilBufPos + 1) ≤ fuel
        omega

/-! ## Decoder lemmas -/

lemma length_bytesToOffsets : ∀ bs : List Nat,
    (bytesToOffsets bs).length = bs.length / 4 := by
  intro bs
  induction bs using bytesToOffsets.induct with
  | case1 b0 b1 b2 b3 rest ih =>
    simp only [bytesToOffsets, List.length_cons, ih]
    omega
  | case2 bs h =>
    rcases bs with - | ⟨b0, - | ⟨b1, - | ⟨b2, - | ⟨b3, rest⟩⟩⟩⟩
    · rfl
    · show (0 : Nat) = 1 / 4
      omega
    · show (0 : Nat) = 2 / 4
      omega
    · show (0 : Nat) = 3 / 4
      omega
    · exact absurd rfl (h b0 b1 b2 b3 rest)

lemma bytesToOffsets_append : ∀ xs ys : List Nat, 4 ∣ xs.length →
    bytesToOffsets (xs ++ ys) = bytesToOffsets xs ++ bytesToOffsets ys := by
  intro xs
  induction xs using bytesToOffsets.induct with
  | case1 b0 b1 b2 b3 rest ih =>
    intro ys hdvd
    simp only [List.length_cons] at hdvd
    simp only [List.cons_append, bytesToOffsets, List.append_eq]
    rw [ih ys (by omega)]
  | case2 bs h =>
    intro ys hdvd
    rcases bs with - | ⟨b0, - | ⟨b1, - | ⟨b2, - | ⟨b3, rest⟩⟩⟩⟩
    · rfl
    · exfalso
      simp only [List.length_cons, List.length_nil] at hdvd
      omega
    · exfalso
      simp only [List.length_cons, List.length_nil] at hdvd
      omega
    · exfalso
      simp only [List.length_cons, List.length_nil] at hdvd
      omega
    · exact absurd rfl (h b0 b1 b2 b3 rest)

/-- With a chunk size that is a positive whole number of 4-byte units — what
`main` always configures (the `bkCdBufSize * sizeof(uoffset_t)` at line 931
and the suboption division at line 609) — the chunked decode loop is the
straight-line decode of the whole stream. -/
lemma extractBytes_eq_map {bkFil : List Nat} {R : Nat} (hR : 0 < R)
    (h4 : 4 ∣ R) :
    ∀ (n : Nat) (bs : List Nat), bs.length ≤ n →
      extractBytes bkFil R bs = (bytesToOffsets bs).map (readBkFilByte bkFil) := by
  intro n
  induction n with
  | zero =>
    intro bs hbs
    have hnil : bs = [] := List.length_eq_zero.1 (Nat.le_zero.1 hbs)
    subst hnil
    rw [extractBytes, dif_pos hR, dif_neg (by simp; omega)]
  | succ n ih =>
    intro bs hbs
    rw [extractBytes, dif_pos hR]
    by_cases hlen : R ≤ bs.length
    · rw [dif_pos hlen]
      rw [ih (bs.drop R) (by simp only [List.length_drop]; omega)]
      rw [← List.map_append]
      congr 1
      have htk : 4 ∣ (bs.take R).length := by
        simp only [List.length_take]
        rwa [Nat.min_eq_left hlen]
      rw [← bytesToOffsets_append (bs.take R) (bs.drop R) htk,
        List.take_append_drop]
    · rw [dif_neg hlen]

/-- Byte-level round trip of the offset serialisation for codes below
2^32 (the `uoffset_t` range). -/
lemma bytesToOffsets_bkCdBytes : ∀ codes : List Nat,
    (∀ c ∈ codes, c < 2 ^ 32) →
    bytesToOffsets (bkCdBytes codes) = codes := by
  intro codes
  induction codes with
  | nil => intro; rfl
  | cons c cs ih =>
    intro h
    have hc : c < 2 ^ 32 := h c (List.mem_cons_self c cs)
    show bytesToOffsets (offsetToBytes c ++ bkCdBytes cs) = c :: cs
    simp only [offsetToBytes, List.cons_append, List.nil_append, bytesToOffsets,
      List.append_eq]
    rw [ih (fun x hx => h x (List.mem_cons_of_mem c hx))]
    congr 1
    have h32 : c < 4294967296 := by
      simpa using hc
    omega

lemma length_bkCdBytes : ∀ codes : List Nat,
    (bkCdBytes codes).length = 4 * codes.length := by
  intro codes
  induction codes with
  | nil => rfl
  | cons c cs ih =>
    show (offsetToBytes c ++ bkCdBytes cs).length = 4 * (cs.length + 1)
    simp only [List.length_append, ih, offsetToBytes, List.length_cons,
      List.length_nil]
    omega

/-- Reading back a list of sound offsets returns the encoded bytes. -/
lemma map_read_of_forall₂ {bkFil : List Nat} {S : Nat}
    (hS : S ≤ bkFil.length) :
    ∀ {xs os : List Nat},
      List.Forall₂ (fun x o => o < S ∧ bkFil.getD o 0 = x) xs os →
      os.map (readBkFilByte bkFil) = xs := by
  intro xs os h
  induction h with
  | nil => rfl
  | cons hxo _ ih =>
    simp only [List.map_cons, ih, List.cons.injEq, and_true]
    unfold readBkFilByte
    rw [if_pos (lt_of_lt_of_le hxo.1 hS)]
    exact hxo.2

lemma forall₂_right_lt {S : Nat} {P : Nat → Nat → Prop} :
    ∀ {xs os : List Nat},
      List.Forall₂ (fun x o => o < S ∧ P x o) xs os →
      ∀ o ∈ os, o < S := by
  intro xs os h
  induction h with
  | nil => intro o ho; exact absurd ho (List.not_mem_nil o)
  | cons hxo _ ih =>
    intro o ho
    rcases List.mem_cons.1 ho with rfl | ho2
    · exact hxo.1
    · exact ih o ho2

lemma mapOffsets_prefix_ok {bkFil : List Nat} {W : Nat} {aD rB : Bool}
    {F : Nat} : ∀ (xs ys : List Nat) (s : EncState),
    (mapOffsets bkFil W aD rB F (xs ++ ys) s).2.2 = none →
    (mapOffsets bkFil W aD rB F xs s).2.2 = none := by
  intro xs
  induction xs with
  | nil => intro ys s _; rfl
  | cons x xs ih =>
    intro ys s h
    cases hf : findOffset bkFil W aD rB x F s with
    | error e =>
      rw [show ((x :: xs) ++ ys) = x :: (xs ++ ys) from rfl,
        mapOffsets_cons_err hf] at h
      simp at h
    | ok p =>
      obtain ⟨off, s3⟩ := p
      rw [show ((x :: xs) ++ ys) = x :: (xs ++ ys) from rfl,
        mapOffsets_cons_ok hf] at h
      rw [mapOffsets_cons_ok hf]
      exact ih ys s3 h

lemma mapOffsets_eta_ok {bkFil : List Nat} {W : Nat} {aD rB : Bool}
    {F : Nat} {bs : List Nat} {s : EncState}
    (h : (mapOffsets bkFil W aD rB F bs s).2.2 = none) :
    mapOffsets bkFil W aD rB F bs s
      = ((mapOffsets bkFil W aD rB F bs s).1,
          (mapOffsets bkFil W aD rB F bs s).2.1, none) := by
  rw [← h]

/-! ## The claims -/

/-- C2: every offset code `o` emitted for an input byte `b` satisfies
`0 ≤ o < |C|` and `C[o] = b`.  Stated as an ordered correspondence between
the emitted codes and the input prefix they encode, so it also covers
sessions that abort part-way: whatever was written is valid.  `0 ≤ o` is
automatic for `Nat` offsets.  (Internally the offsets even satisfy the
sharper bound `o < truncBkFilSize bkFil W ≤ |C|`.) -/
theorem offset_validity (bkFil : List Nat) (W : Nat) (aD rB : Bool)
    (F : Nat) (input : List Nat) (hW : 0 < W) :
    List.Forall₂
      (fun b o => o < bkFil.length ∧ bkFil.getD o 0 = b)
      (input.take (mapOffsets bkFil W aD rB F input initState).1.length)
      (mapOffsets bkFil W aD rB F input initState).1 := by
  have h := (mapOffsets_sound bkFil W aD rB F hW input initState (encInv_init bkFil W)).2.1
  exact h.imp
    (fun x o hx => ⟨lt_of_lt_of_le hx.1 (truncBkFilSize_le bkFil W), hx.2⟩)

theorem offset_validity_witness :
    0 < 2 ∧
    List.Forall₂
      (fun b o => o < ([0, 1] : List Nat).length ∧ ([0, 1] : List Nat).getD o 0 = b)
      (([0, 1] : List Nat).take
        (mapOffsets [0, 1] 2 false false 10 [0, 1] initState).1.length)
      (mapOffsets [0, 1] 2 false false 10 [0, 1] initState).1 :=
  ⟨by decide, offset_validity [0, 1] 2 false false 10 [0, 1] (by decide)⟩

/-- C3: when an encoding session completes, the encoded stream is exactly
4 bytes per input byte — one fixed-width `uoffset_t` per byte, in input
order. -/
theorem size_law (bkFil : List Nat) (W : Nat) (aD rB : Bool) (F : Nat)
    (input : List Nat) (hW : 0 < W)
    (hok : (mapOffsets bkFil W aD rB F input initState).2.2 = none) :
    (bkCdBytes (mapOffsets bkFil W aD rB F input initState).1).length
      = 4 * input.length := by
  rw [length_bkCdBytes,
    (mapOffsets_sound bkFil W aD rB F hW input initState (encInv_init bkFil W)).2.2.1 hok]

theorem size_law_witness :
    0 < 2 ∧
    (mapOffsets [0, 1] 2 false false 10 [0, 1] initState).2.2 = none ∧
    (bkCdBytes (mapOffsets [0, 1] 2 false false 10 [0, 1] initState).1).length
      = 4 * ([0, 1] : List Nat).length :=
  ⟨by decide, by decide,
    size_law [0, 1] 2 false false 10 [0, 1] (by decide) (by decide)⟩

/-- C1 (amended): decoding recovers the input exactly whenever the encoding
session completes successfully, for any window size, decode chunk size (a
positive whole number of 4-byte units) and corpus within the 32-bit offset
range.  The unamended claim — that coverage of the input's byte values by
the corpus suffices — is refuted by `round_trip_cex` below: coverage does
not guarantee that encoding completes. -/
theorem round_trip (bkFil : List Nat) (W R : Nat) (aD rB : Bool) (F : Nat)
    (input : List Nat) (hW : 0 < W) (hR : 0 < R) (h4 : 4 ∣ R)
    (hS : truncBkFilSize bkFil W ≤ 2 ^ 32)
    (hok : (mapOffsets bkFil W aD rB F input initState).2.2 = none) :
    extractBytes bkFil R
      (bkCdBytes (mapOffsets bkFil W aD rB F input initState).1) = input := by
  obtain ⟨-, hfa, hlen, -⟩ :=
    mapOffsets_sound bkFil W aD rB F hW input initState (encInv_init bkFil W)
  have hcs : ∀ c ∈ (mapOffsets bkFil W aD rB F input initState).1, c < 2 ^ 32 :=
    fun c hc => lt_of_lt_of_le (forall₂_right_lt hfa c hc) hS
  rw [extractBytes_eq_map hR h4
      (bkCdBytes (mapOffsets bkFil W aD rB F input initState).1).length _ le_rfl,
    bytesToOffsets_bkCdBytes _ hcs,
    map_read_of_forall₂ (truncBkFilSize_le bkFil W) hfa,
    hlen hok, List.take_length]

theorem round_trip_witness :
    0 < 2 ∧ 0 < 4 ∧ (4 ∣ 4) ∧
    truncBkFilSize [0, 1] 2 ≤ 2 ^ 32 ∧
    (mapOffsets [0, 1] 2 false false 10 [0, 1] initState).2.2 = none ∧
    extractBytes [0, 1] 4
      (bkCdBytes (mapOffsets [0, 1] 2 false false 10 [0, 1] initState).1)
      = [0, 1] :=
  ⟨by decide, by decide, by decide, by decide, by decide,
    round_trip [0, 1] 2 4 false false 10 [0, 1] (by decide) (by decide)
      (by decide) (by decide) (by decide)⟩

/-- C1 (counterexample to the claim as stated): for the corpus `[1, 0]`
with window size 2 every byte value of the input `[0, 1]` occurs in the
corpus, yet the encoding session never completes — after accepting offset 1
for the first byte, the scan for byte `1` immediately reaches the
end-of-corpus check with `offsetDigest[1]` still at its sentinel (offset 0
was never revisited) and aborts with the insufficient-entropy error, for
every fuel bound.  Hence `decode(encode(X, C), C) = X` fails: there is no
encoded stream at all. -/
theorem round_trip_cex :
    (∀ b ∈ ([0, 1] : List Nat), b ∈ ([1, 0] : List Nat)) ∧
    ∀ F : Nat,
      (mapOffsets [1, 0] 2 false false F [0, 1] initState).2.2 ≠ none := by
  refine ⟨by decide, ?_⟩
  intro F
  match F with
  | 0 => decide
  | 1 => decide
  | (f + 2) =>
    have h1 : findOffset [1, 0] 2 false false 0 (f + 2) initState
        = .ok (1, ⟨0, 1, fun k => if k = 0 then some 1 else none, 0⟩) := rfl
    have h2 : findOffset [1, 0] 2 false false 1 (f + 2)
        ⟨0, 1, fun k => if k = 0 then some 1 else none, 0⟩
        = .error .insufficientEntropy := rfl
    rw [mapOffsets_cons_ok h1, mapOffsets_cons_err h2]
    simp

/-- C8: a book-code stream whose length is not a whole multiple of 4 is
decoded without error; the trailing partial offset unit is discarded and
exactly `⌊length / 4⌋` bytes are produced.  (`extractBytes` is a total
function: the C loop only aborts on I/O errors, which the model excludes.) -/
theorem trailing_partial_unit (bkFil : List Nat) (R : Nat) (bs : List Nat)
    (hR : 0 < R) (h4 : 4 ∣ R) (hpart : ¬ 4 ∣ bs.length) :
    (extractBytes bkFil R bs).length = bs.length / 4 := by
  rw [extractBytes_eq_map hR h4 bs.length bs le_rfl, List.length_map,
    length_bytesToOffsets]

theorem trailing_partial_unit_witness :
    0 < 4 ∧ (4 ∣ 4) ∧ ¬ (4 ∣ ([9, 9, 9, 9, 9] : List Nat).length) ∧
    (extractBytes [0] 4 [9, 9, 9, 9, 9]).length
      = ([9, 9, 9, 9, 9] : List Nat).length / 4 :=
  ⟨by decide, by decide, by decide,
    trailing_partial_unit [0] 4 [9, 9, 9, 9, 9] (by decide) (by decide)
      (by decide)⟩

/-- C10: the decoder never fails on an out-of-range offset code.  The `i`-th
whole unit of the stream holding an offset `o ≥ |C|` decodes to the byte
`0xFF` (the unchecked `fgetc` returns `EOF = -1`, truncated by the
`byte_t` store), and the session continues to completion, still producing
`⌊length / 4⌋` bytes. -/
theorem out_of_range_offset (bkFil : List Nat) (R : Nat) (bs : List Nat)
    (i o : Nat) (hR : 0 < R) (h4 : 4 ∣ R)
    (ho : (bytesToOffsets bs)[i]? = some o)
    (hlen : bkFil.length ≤ o) :
    (extractBytes bkFil R bs)[i]? = some 255 ∧
    (extractBytes bkFil R bs).length = bs.length / 4 := by
  rw [extractBytes_eq_map hR h4 bs.length bs le_rfl]
  constructor
  · rw [List.getElem?_map, ho]
    show some (readBkFilByte bkFil o) = some 255
    unfold readBkFilByte
    rw [if_neg (by omega)]
  · rw [List.length_map, length_bytesToOffsets]

theorem out_of_range_offset_witness :
    0 < 4 ∧ (4 ∣ 4) ∧
    (bytesToOffsets [5, 0, 0, 0])[0]? = some 5 ∧
    ([0] : List Nat).length ≤ 5 ∧
    (extractBytes [0] 4 [5, 0, 0, 0])[0]? = some 255 ∧
    (extractBytes [0] 4 [5, 0, 0, 0]).length = ([5, 0, 0, 0] : List Nat).length / 4 := by
  refine ⟨by decide, by decide, by decide, by decide, ?_⟩
  exact out_of_range_offset [0] 4 [5, 0, 0, 0] 0 5 (by decide) (by decide)
    (by decide) (by decide)

/-- The scan for a second `0` against the corpus `[0, 1]` spins forever:
from the state below (window cursor on index 1, `offsetDigest[0] = 0` from
the first acceptance, one soft repeat recorded) every step refills the
window, wraps (the digest entry for `0` is set, so the entropy check
passes) and resumes at buffer index 1, skipping index 0 — the only
occurrence of `0` — each time. -/
lemma cex_loop : ∀ f : Nat,
    findOffset [0, 1] 2 false false 0 f
        ⟨0, 1, fun k => if k = 0 then some 0 else none, 1⟩
      = .error .outOfFuel := by
  intro f
  induction f with
  | zero => rfl
  | succ f ih => exact ih

/-- C4 (counterexample to the claim as stated): the input `[0, 0, 2]`
contains the byte `2`, absent from the whole corpus `[0, 1]`, yet the
session does not terminate with the insufficient-entropy error: it loops
forever (for every fuel bound) while scanning for the *second* `0`,
because every window reload resumes at buffer index 1 and so never revisits
offset 0.  The absent byte is never even reached. -/
theorem coverage_failure_cex :
    (2 ∉ ([0, 1] : List Nat)) ∧ 2 ∈ ([0, 0, 2] : List Nat) ∧
    ∀ F : Nat,
      (mapOffsets [0, 1] 2 false false F [0, 0, 2] initState).2.2
        ≠ some MapErr.insufficientEntropy := by
  refine ⟨by decide, by decide, ?_⟩
  intro F
  match F with
  | 0 => decide
  | (f + 1) =>
    have h1 : findOffset [0, 1] 2 false false 0 (f + 1) initState
        = .ok (0, ⟨0, 0, fun k => if k = 0 then some 0 else none, 0⟩) := rfl
    have h2 : findOffset [0, 1] 2 false false 0 (f + 1)
        ⟨0, 0, fun k => if k = 0 then some 0 else none, 0⟩
        = .error .outOfFuel := cex_loop f
    rw [mapOffsets_cons_ok h1, mapOffsets_cons_err h2]
    simp

/-- C4 (amended): a byte value absent from the whole corpus file does make
the session terminate deterministically with the insufficient-entropy
error — with fuel covering one corpus pass — provided the encoder reaches
it, i.e. every earlier input byte was mapped successfully (the
counterexample above shows an earlier byte can loop forever first), and
the window holds at least 2 bytes (a 1-byte window spins forever for any
unmatched byte, since every reload resumes at buffer index 1 = W). -/
theorem coverage_failure (bkFil : List Nat) (W : Nat) (aD rB : Bool)
    (F : Nat) (pre rest : List Nat) (b : Nat) (cs : List Nat) (s : EncState)
    (hW2 : 2 ≤ W) (hWL : W ≤ bkFil.length)
    (hb : b ∉ bkFil)
    (hF : truncBkFilSize bkFil W + W ≤ F)
    (hpre : mapOffsets bkFil W aD rB F pre initState = (cs, s, none)) :
    mapOffsets bkFil W aD rB F (pre ++ b :: rest) initState
      = (cs, s, some MapErr.insufficientEntropy) := by
  have hW : 0 < W := by omega
  have htrunc : W ≤ truncBkFilSize bkFil W := le_truncBkFilSize bkFil W hW hWL
  have hsound := mapOffsets_sound bkFil W aD rB F hW pre initState
    (encInv_init bkFil W)
  rw [hpre] at hsound
  obtain ⟨hinvS, -, -, hstrong⟩ := hsound
  obtain ⟨hposS, hbufS⟩ := hstrong ⟨by show (0 : Nat) < _; omega, by show 0 < W; omega⟩
  have habs : ∀ i, i < truncBkFilSize bkFil W → bkFil.getD i 0 ≠ b := by
    intro i hi heq
    have hilen : i < bkFil.length := lt_of_lt_of_le hi (truncBkFilSize_le bkFil W)
    rw [List.getD_eq_getElem bkFil 0 hilen] at heq
    exact hb (heq ▸ List.getElem_mem hilen)
  have herr : findOffset bkFil W aD rB b F s = .error .insufficientEntropy :=
    findOffset_absent hW2 habs F s hinvS.2 hinvS.1 hposS hbufS (by omega)
  rw [mapOffsets_append_ok pre (b :: rest) initState cs s hpre,
    mapOffsets_cons_err herr]
  simp

theorem coverage_failure_witness :
    2 ≤ 2 ∧ 2 ≤ ([0, 1] : List Nat).length ∧ (2 ∉ ([0, 1] : List Nat)) ∧
    truncBkFilSize [0, 1] 2 + 2 ≤ 10 ∧
    mapOffsets [0, 1] 2 false false 10 [] initState = ([], initState, none) ∧
    mapOffsets [0, 1] 2 false false 10 ([] ++ 2 :: []) initState
      = ([], initState, some MapErr.insufficientEntropy) :=
  ⟨by decide, by decide, by decide, by decide, rfl,
    coverage_failure [0, 1] 2 false false 10 [] [] 2 [] initState
      (by decide) (by decide) (by decide) (by decide) rfl⟩

/-- C7 (the code at the failing input): the corpus `[0, 0, 1, 0]` with a
2-byte window holds the byte `1` exactly once, at offset 2 — the reload
point of the second window.  The claim (and the intent of the reload code,
which explicitly "reset[s] the buffer position" to scan the new window)
says the byte is found there; instead the `for` increment after the refill
moves the cursor to index 1, offset 2 is never examined, and the session
aborts with the insufficient-entropy error. -/
theorem window_reload_skips_first_byte :
    List.getD [0, 0, 1, 0] 2 0 = 1 ∧
    (2 : Nat) < truncBkFilSize [0, 0, 1, 0] 2 ∧
    mapOffsets [0, 0, 1, 0] 2 false false 20 [1] initState
      = ([], initState, some MapErr.insufficientEntropy) :=
  ⟨by decide, by decide, rfl⟩

/-- C9: the usable corpus is truncated to a whole number of windows
(`bkFilSize -= bkFilSize % bkFilBufSize`, line 860): every emitted offset
is below `truncBkFilSize`, and a byte value occurring only in the
discarded tail is treated exactly like an absent one — its scan aborts
with the insufficient-entropy error even though the byte is present in
the corpus file. -/
theorem corpus_tail_discarded (bkFil : List Nat) (W : Nat) (aD rB : Bool)
    (F : Nat) (input : List Nat) (b : Nat)
    (hW2 : 2 ≤ W) (hWL : W ≤ bkFil.length)
    (hbS : ∀ i, i < truncBkFilSize bkFil W → bkFil.getD i 0 ≠ b)
    (hbmem : b ∈ bkFil)
    (hF : truncBkFilSize bkFil W + W ≤ F) :
    (∀ o ∈ (mapOffsets bkFil W aD rB F input initState).1,
        o < truncBkFilSize bkFil W) ∧
    findOffset bkFil W aD rB b F initState = .error .insufficientEntropy := by
  have hW : 0 < W := by omega
  have htrunc : W ≤ truncBkFilSize bkFil W := le_truncBkFilSize bkFil W hW hWL
  constructor
  · exact forall₂_right_lt
      (mapOffsets_sound bkFil W aD rB F hW input initState (encInv_init bkFil W)).2.1
  · exact findOffset_absent hW2 hbS F initState
      (digestSound_init bkFil _) (Dvd.intro 0 rfl)
      (by show (0 : Nat) < _; omega) (by show (0 : Nat) < W; omega) (by omega)

theorem corpus_tail_discarded_witness :
    2 ≤ 2 ∧ 2 ≤ ([0, 0, 0, 0, 1] : List Nat).length ∧
    (∀ i, i < truncBkFilSize [0, 0, 0, 0, 1] 2 →
      List.getD [0, 0, 0, 0, 1] i 0 ≠ 1) ∧
    1 ∈ ([0, 0, 0, 0, 1] : List Nat) ∧
    truncBkFilSize [0, 0, 0, 0, 1] 2 + 2 ≤ 10 ∧
    ((∀ o ∈ (mapOffsets [0, 0, 0, 0, 1] 2 false false 10 [0] initState).1,
        o < truncBkFilSize [0, 0, 0, 0, 1] 2) ∧
      findOffset [0, 0, 0, 0, 1] 2 false false 1 10 initState
        = .error .insufficientEntropy) :=
  ⟨by decide, by decide, by decide, by decide, by decide,
    corpus_tail_discarded [0, 0, 0, 0, 1] 2 false false 10 [0] 1
      (by decide) (by decide) (by decide) (by decide) (by decide)⟩

/-- C5 (counterexample to the claim as stated): in the corpus
`[0, 1, 1, 1]` with a 2-byte window, the scan below for `b = 1` starts
with `repeatsFound = 2` (two soft repeats already recorded, which is how
`mapOffsets` on input `[1, 1]` actually reaches this state) and its cursor
on offset 1, a candidate equal to the digest entry for `1`.  The claim says
this next candidate is force-accepted "regardless of repeat status", i.e.
offset 1 would be emitted; instead the code takes `goto refillBuffer`
(line 269), abandons the window, and emits offset 3 from the next window. -/
theorem force_accept_cex :
    2 ≤ (⟨0, 1, fun k => if k = 1 then some 1 else none, 2⟩ : EncState).repeatsFound ∧
    (⟨0, 1, fun k => if k = 1 then some 1 else none, 2⟩ : EncState).offsetDigest 1
      = some 1 ∧
    List.getD [0, 1, 1, 1] 1 0 = 1 ∧
    (findOffset [0, 1, 1, 1] 2 false false 1 20
        ⟨0, 1, fun k => if k = 1 then some 1 else none, 2⟩).toOption.map Prod.fst
      = some 3 ∧
    (3 : Nat) ≠ 1 := by
  refine ⟨by decide, by decide, by decide, ?_, by decide⟩
  rfl

/-- C5 (amended): after two soft repeats without an intervening acceptance,
a further candidate equal to the digest entry for `b` is *not* accepted:
the encoder jumps to the refill block, reloading the next window (or
wrapping, with the entropy check passed by the set digest entry) and
resuming from buffer index 1, with `repeatsFound` unchanged (`refillBuffer`
does not touch it); the counter is reset only by an actual acceptance. -/
theorem soft_repeat_skips_window (bkFil : List Nat) (W : Nat) (rB : Bool)
    (F : Nat) (b : Nat) (s s2 : EncState)
    (hpos : s.bkFilPos < truncBkFilSize bkFil W)
    (hbuf : s.bkFilBufPos < W)
    (hmatch : b = bkFil.getD (s.bkFilPos + s.bkFilBufPos) 0)
    (hdig : s.offsetDigest b = some (s.bkFilBufPos + s.bkFilPos))
    (hrf : 2 ≤ s.repeatsFound)
    (hre : refillBuffer bkFil W rB b s = .ok s2) :
    findOffset bkFil W false rB b (F + 1) s
      = findOffset bkFil W false rB b F s2 ∧
    s2.repeatsFound = s.repeatsFound := by
  constructor
  · rw [findOffset, if_pos hpos, if_pos hbuf]
    simp only
    rw [if_pos hmatch, if_pos ⟨trivial, by rw [← hmatch]; exact hdig⟩,
      if_pos hrf, hre]
  · rcases refillBuffer_ok_cases hre with ⟨rfl, -⟩ | ⟨rfl, -, -⟩ <;> rfl

theorem soft_repeat_skips_window_witness :
    (0 : Nat) < truncBkFilSize [0, 1, 1, 1] 2 ∧
    (1 : Nat) < 2 ∧
    (1 : Nat) = List.getD [0, 1, 1, 1] (0 + 1) 0 ∧
    (fun k => if k = 1 then some 1 else (none : Option Nat)) 1 = some (1 + 0) ∧
    2 ≤ 2 ∧
    refillBuffer [0, 1, 1, 1] 2 false 1
        ⟨0, 1, fun k => if k = 1 then some 1 else none, 2⟩
      = .ok ⟨2, 1, fun k => if k = 1 then some 1 else none, 2⟩ ∧
    (findOffset [0, 1, 1, 1] 2 false false 1 20
          ⟨0, 1, fun k => if k = 1 then some 1 else none, 2⟩
        = findOffset [0, 1, 1, 1] 2 false false 1 19
          ⟨2, 1, fun k => if k = 1 then some 1 else none, 2⟩ ∧
      (⟨2, 1, fun k => if k = 1 then some 1 else none, 2⟩ : EncState).repeatsFound
        = (⟨0, 1, fun k => if k = 1 then some 1 else none, 2⟩ : EncState).repeatsFound) :=
  ⟨by decide, by decide, by decide, by decide, by decide, rfl,
    soft_repeat_skips_window [0, 1, 1, 1] 2 false 19 1
      ⟨0, 1, fun k => if k = 1 then some 1 else none, 2⟩
      ⟨2, 1, fun k => if k = 1 then some 1 else none, 2⟩
      (by decide) (by decide) (by decide) (by decide) (by decide) rfl⟩

/-- C6: with duplicates disallowed, two consecutive offsets emitted for the
same byte value are never identical — stated for any two emissions for `b`
with no other `b` in between, in any successfully completing session.  This
is stronger than the claim: the claim's "≥ 2 occurrences in the window"
hypothesis is not needed, and its "except when the two-soft-repeat override
fires" escape clause is vacuous, because the override (line 269) never
accepts a candidate — it jumps to the refill block — so every actual
acceptance passes the `offsetDigest[b] != byteOffset` test. -/
theorem no_immediate_repeat (bkFil : List Nat) (W : Nat) (rB : Bool) (F : Nat)
    (p m r cp cm cr : List Nat) (b o1 o2 : Nat) (hW : 0 < W)
    (hcodes : (mapOffsets bkFil W false rB F (p ++ b :: (m ++ b :: r)) initState).1
      = cp ++ o1 :: (cm ++ o2 :: cr))
    (hok : (mapOffsets bkFil W false rB F (p ++ b :: (m ++ b :: r)) initState).2.2
      = none)
    (hp : cp.length = p.length) (hm : cm.length = m.length) (hbm : b ∉ m) :
    o1 ≠ o2 := by
  have hokp := mapOffsets_prefix_ok p (b :: (m ++ b :: r)) initState hok
  have hpre := mapOffsets_eta_ok hokp
  have happ1 := mapOffsets_append_ok p (b :: (m ++ b :: r)) initState _ _ hpre
  have hok1 : (mapOffsets bkFil W false rB F (b :: (m ++ b :: r))
      (mapOffsets bkFil W false rB F p initState).2.1).2.2 = none := by
    rw [happ1] at hok
    exact hok
  cases hf1 : findOffset bkFil W false rB b F
      (mapOffsets bkFil W false rB F p initState).2.1 with
  | error e => rw [mapOffsets_cons_err hf1] at hok1; simp at hok1
  | ok q =>
    obtain ⟨off1, s2⟩ := q
    have hok2 : (mapOffsets bkFil W false rB F (m ++ b :: r) s2).2.2 = none := by
      rw [mapOffsets_cons_ok hf1] at hok1
      exact hok1
    have hokm := mapOffsets_prefix_ok m (b :: r) s2 hok2
    have hmid := mapOffsets_eta_ok hokm
    have happ2 := mapOffsets_append_ok m (b :: r) s2 _ _ hmid
    have hok3 : (mapOffsets bkFil W false rB F (b :: r)
        (mapOffsets bkFil W false rB F m s2).2.1).2.2 = none := by
      rw [happ2] at hok2
      exact hok2
    cases hf2 : findOffset bkFil W false rB b F
        (mapOffsets bkFil W false rB F m s2).2.1 with
    | error e => rw [mapOffsets_cons_err hf2] at hok3; simp at hok3
    | ok q2 =>
      obtain ⟨off2, s4⟩ := q2
      obtain ⟨hinv1, -, hlen1, -⟩ :=
        mapOffsets_sound bkFil W false rB F hW p initState (encInv_init bkFil W)
      obtain ⟨-, -, hinv2, -, -, hdig2, -, -⟩ :=
        findOffset_ok hW F _ off1 s2 hinv1 hf1
      obtain ⟨hinv3, -, hlen3, -⟩ := mapOffsets_sound bkFil W false rB F hW m s2 hinv2
      have hd3 : (mapOffsets bkFil W false rB F m s2).2.1.offsetDigest b
          = some off1 := by
        rw [mapOffsets_digest_not_mem hW m s2 hinv2 hbm hokm, hdig2]
        simp
      obtain ⟨-, -, -, -, -, -, -, hne⟩ := findOffset_ok hW F _ off2 s4 hinv3 hf2
      have hne2 : off1 ≠ off2 := by
        intro he
        exact hne rfl (by rw [hd3, he])
      have hcodes2 : (mapOffsets bkFil W false rB F
          (p ++ b :: (m ++ b :: r)) initState).1
          = (mapOffsets bkFil W false rB F p initState).1
            ++ off1 :: ((mapOffsets bkFil W false rB F m s2).1
              ++ off2 :: (mapOffsets bkFil W false rB F r s4).1) := by
        simp only [happ1, mapOffsets_cons_ok hf1, happ2, mapOffsets_cons_ok hf2]
      rw [hcodes2] at hcodes
      have hlcp : (mapOffsets bkFil W false rB F p initState).1.length
          = cp.length := by
        rw [hlen1 hokp, hp]
      obtain ⟨-, hrest⟩ := List.append_inj hcodes hlcp
      injection hrest with ho1 hrest2
      have hlcm : (mapOffsets bkFil W false rB F m s2).1.length = cm.length := by
        rw [hlen3 hokm, hm]
      obtain ⟨-, hrest3⟩ := List.append_inj hrest2 hlcm
      injection hrest3 with ho2 htail
      rw [← ho1, ← ho2]
      exact hne2

theorem no_immediate_repeat_witness :
    0 < 2 ∧
    (mapOffsets [0, 1, 1, 1] 2 false false 20
        (([] : List Nat) ++ 1 :: (([] : List Nat) ++ 1 :: [])) initState).1
      = ([] : List Nat) ++ 1 :: (([] : List Nat) ++ 3 :: []) ∧
    (mapOffsets [0, 1, 1, 1] 2 false false 20
        (([] : List Nat) ++ 1 :: (([] : List Nat) ++ 1 :: [])) initState).2.2
      = none ∧
    (1 : Nat) ≠ 3 :=
  ⟨by decide, by decide, by decide,
    no_immediate_repeat [0, 1, 1, 1] 2 false 20 [] [] [] [] [] [] 1 1 3
      (by decide) (by decide) (by decide) rfl rfl (by decide)⟩

end Bookcoder
